import Mathlib

/-!
Shallow embedding of `src/python/examples/SegyIO_Shots.py`.

The external segyio data source is modelled as:
  * a finite list of trace headers (each header a record of the integer
    header fields the code reads: FieldRecord, SourceX, SourceY, GroupX,
    GroupY), and
  * the file's trace data, a list of traces, each a list of samples.

Python dicts (insertion-ordered, unique keys) are modelled as association
lists where inserting an existing key replaces the value in place and a new
key is appended at the end. Python list indexing (negative wrap-around,
IndexError when out of range) is modelled by `pyListGet`. `range` and
`slice.indices` are modelled by `rangeList` and `sliceIndices` following
CPython's semantics. Exceptions are modelled with `Except`.

Sample values are modelled as integers: the code only copies samples
around, never computes with them.
-/

/-- One per-trace header, holding the integer fields the code reads. -/
structure Header where
  FieldRecord : Int
  SourceX : Int
  SourceY : Int
  GroupX : Int
  GroupY : Int
deriving DecidableEq, Repr

/-- The per-shot dictionary built by `__init__`:
`{'Trace_Position': _, 'Num_Traces': _, 'Source_XY': _, 'Receiver_XYs': _}`. -/
structure ShotEntry where
  Trace_Position : Nat
  Num_Traces : Nat
  Source_XY : Int × Int
  Receiver_XYs : List (Int × Int)
deriving DecidableEq, Repr

/-- Python exceptions raised by the code (`IndexError`, `KeyError`
from `self.shots[FieldRecord]`, `ValueError` from `slice.indices` on a
zero step). -/
inductive SegyError where
  | indexError
  | keyError
  | valueError
deriving DecidableEq, Repr

/-- Python dict lookup `d[k]` on an association list: first matching key. -/
def dictGet (l : List (Int × α)) (k : Int) : Option α :=
  match l with
  | [] => none
  | (k', v) :: rest => if k' = k then some v else dictGet rest k

/-- Python dict assignment `d[k] = v`: replace the value in place when the
key exists (keeping its position), append otherwise. -/
def dictSet (l : List (Int × α)) (k : Int) (v : α) : List (Int × α) :=
  match l with
  | [] => [(k, v)]
  | (k', v') :: rest => if k' = k then (k, v) :: rest else (k', v') :: dictSet rest k v

/-- In-place mutation of a dict value (`d[k]['f'] += 1` etc.): apply `f`
to every entry whose key is `k` (with unique keys, exactly one). -/
def dictModify (l : List (Int × α)) (k : Int) (f : α → α) : List (Int × α) :=
  l.map (fun p => if p.1 = k then (p.1, f p.2) else p)

/-- Python list indexing `l[i]`: non-negative indices from the front,
negative indices wrap from the end, anything else is an IndexError
(modelled as `none`). -/
def pyListGet (l : List α) (i : Int) : Option α :=
  if 0 ≤ i then (if i < l.length then l[i.toNat]? else none)
  else (if 0 ≤ i + l.length then l[(i + l.length).toNat]? else none)

/-- Scan state of the `for trace in file_headers` loop in `__init__`. -/
structure BuildState where
  shots : List (Int × ShotEntry)
  curr_ident : Option Int
  pos_in_file : Nat
deriving Repr

/-- The fresh entry created at the start of a new shot:
`{'Trace_Position': cursor, 'Num_Traces': 1, 'Source_XY': source, 'Receiver_XYs': []}`. -/
def freshEntry (pos : Nat) (trace : Header) : ShotEntry :=
  { Trace_Position := pos,
    Num_Traces := 1,
    Source_XY := (trace.SourceX, trace.SourceY),
    Receiver_XYs := [] }

/-- The in-place mutation `shots[ident]['Num_Traces'] += 1`. -/
def incCount (e : ShotEntry) : ShotEntry :=
  { e with Num_Traces := e.Num_Traces + 1 }

/-- The in-place mutation `shots[ident]['Receiver_XYs'].append(xy)`. -/
def recvApp (xy : Int × Int) (e : ShotEntry) : ShotEntry :=
  { e with Receiver_XYs := e.Receiver_XYs ++ [xy] }

/-- One iteration of the header loop in `__init__`: on a new identifier,
overwrite `shots[ident]` with a fresh entry (position = cursor, count 1,
source from this header, empty receivers); otherwise increment
`Num_Traces`.  In both cases append this header's group coordinates to
`Receiver_XYs` and advance the cursor. -/
def buildStep (st : BuildState) (trace : Header) : BuildState :=
  let st1 :=
    if st.curr_ident ≠ some trace.FieldRecord then
      { shots := dictSet st.shots trace.FieldRecord (freshEntry st.pos_in_file trace),
        curr_ident := some trace.FieldRecord,
        pos_in_file := st.pos_in_file }
    else
      { st with shots := (dictModify st.shots trace.FieldRecord incCount) }
  { st1 with
    shots :=
      (dictModify st1.shots trace.FieldRecord (recvApp (trace.GroupX, trace.GroupY))),
    pos_in_file := st1.pos_in_file + 1 }

/-- The full header scan of `__init__`. -/
def buildLoop (st : BuildState) : List Header → BuildState
  | [] => st
  | h :: rest => buildLoop (buildStep st h) rest

/-- The object state after `__init__`: the shots dict plus
`records = list(shots.keys())`, `num_shots = len(shots)` and the
file-level scalar `num_samples = len(f.samples)`. -/
structure SegyIO_Shots where
  shots : List (Int × ShotEntry)
  records : List Int
  num_shots : Nat
  num_samples : Nat
deriving Repr

/-- `__init__`, given the decoded header stream and `num_samples` from the
data source: run the scan and take `records` and `num_shots` from the
resulting dict. -/
def SegyIO_Shots.build (num_samples : Nat) (headers : List Header) : SegyIO_Shots :=
  let final := buildLoop ⟨[], none, 0⟩ headers
  { shots := final.shots,
    records := final.shots.map (·.1),
    num_shots := final.shots.length,
    num_samples := num_samples }

/-- `__init__` in fallible form: the Python body raises no exception of its
own on any header stream (in particular it has no emptiness check), so the
result is always `ok`. -/
def SegyIO_Shots.buildE (num_samples : Nat) (headers : List Header) :
    Except SegyError SegyIO_Shots :=
  .ok (SegyIO_Shots.build num_samples headers)

/-- The spec's range read `read_traces(start, count)`: the contiguous block
of `count` traces starting at sequential position `start`. -/
def readTraces (file : List (List Int)) (start count : Nat) : List (List Int) :=
  (file.drop start).take count

/-- The fill loop of `get_shot`: `retrieved_shot[i] = trace` for each row
of the slice; rows beyond the slice keep their zeros. -/
def fillRows : List (List Int) → List (List Int) → List (List Int)
  | zs, [] => zs
  | [], _ => []
  | _ :: zs, r :: rs => r :: fillRows zs rs

/-- `get_shot(FieldRecord)`: look up the entry (a missing key is a Python
KeyError), allocate a zero matrix of shape `Num_Traces × num_samples`, and
copy in the trace slice `f.trace[position : position + Num_Traces]`. -/
def SegyIO_Shots.get_shot (file : List (List Int)) (s : SegyIO_Shots)
    (FieldRecord : Int) : Except SegyError (List (List Int)) :=
  match dictGet s.shots FieldRecord with
  | none => .error .keyError
  | some e =>
    let retrieved_shot := List.replicate e.Num_Traces (List.replicate s.num_samples 0)
    let shot_traces := (file.drop e.Trace_Position).take e.Num_Traces
    .ok (fillRows retrieved_shot shot_traces)

/-- The negative-index normalization `if key < 0: key += self.num_shots`. -/
def pyResolve (key : Int) (num_shots : Nat) : Int :=
  if key < 0 then key + num_shots else key

/-- The `isinstance(key, int)` branch of `__getitem__`: add `num_shots` to
a negative key, raise IndexError when the result exceeds `num_shots`,
otherwise index `records` with Python list semantics and build the
singleton dict `{records[key]: get_shot(records[key])}`. -/
def SegyIO_Shots.getItemInt (file : List (List Int)) (s : SegyIO_Shots)
    (key : Int) : Except SegyError (List (Int × List (List Int))) :=
  let key' := pyResolve key s.num_shots
  if (s.num_shots : Int) < key' then .error .indexError
  else
    match pyListGet s.records key' with
    | none => .error .indexError
    | some ident =>
      match s.get_shot file ident with
      | .error e => .error e
      | .ok m => .ok [(ident, m)]

/-- Number of elements of Python's `range(start, stop, step)` (`step ≠ 0`). -/
def rangeCount (start stop step : Int) : Nat :=
  if 0 < step then ((stop - start + step - 1) / step).toNat
  else if step < 0 then ((start - stop + (-step) - 1) / (-step)).toNat
  else 0

/-- Python's `range(start, stop, step)` as a list. -/
def rangeList (start stop step : Int) : List Int :=
  (List.range (rangeCount start stop step)).map (fun n => start + step * n)

/-- CPython's `slice.indices(length)` for explicit integer bounds: clamp
`start` and `stop` into the valid window for the sign of `step`. -/
def sliceIndices (start stop step : Int) (length : Nat) : Int × Int × Int :=
  let L : Int := length
  let lower : Int := if step < 0 then -1 else 0
  let upper : Int := if step < 0 then L - 1 else L
  let s := if start < 0 then max (start + L) lower else min start upper
  let e := if stop < 0 then max (stop + L) lower else min stop upper
  (s, e, step)

/-- The accumulation loop of the slice branch of `__getitem__`:
`shot_dict[records[i]] = get_shot(records[i])` for each resolved ordinal. -/
def accumShots (file : List (List Int)) (s : SegyIO_Shots) :
    List Int → List (Int × List (List Int)) →
    Except SegyError (List (Int × List (List Int)))
  | [], acc => .ok acc
  | i :: rest, acc =>
    match pyListGet s.records i with
    | none => .error .indexError
    | some ident =>
      match s.get_shot file ident with
      | .error e => .error e
      | .ok m => accumShots file s rest (dictSet acc ident m)

/-- The `isinstance(key, slice)` branch of `__getitem__`:
`for i in range(*key.indices(self.num_shots))`, accumulating into an
initially empty dict.  A zero step is a Python ValueError inside
`slice.indices`. -/
def SegyIO_Shots.getItemSlice (file : List (List Int)) (s : SegyIO_Shots)
    (start stop step : Int) : Except SegyError (List (Int × List (List Int))) :=
  if step = 0 then .error .valueError
  else
    let r := sliceIndices start stop step s.num_shots
    accumShots file s (rangeList r.1 r.2.1 r.2.2) []

/-- The keys `__getitem__` dispatches on: an int, a slice, or anything
else. -/
inductive PyKey where
  | int (i : Int)
  | slice (start stop step : Int)
  | other
deriving DecidableEq, Repr

/-- `__getitem__`: dispatch on the key's type; a key that is neither an
int nor a slice falls through both branches and returns the empty dict. -/
def SegyIO_Shots.getItem (file : List (List Int)) (s : SegyIO_Shots) :
    PyKey → Except SegyError (List (Int × List (List Int)))
  | .int i => s.getItemInt file i
  | .slice a b c => s.getItemSlice file a b c
  | .other => .ok []

/-- Modelled from the spec: the class docstring advertises a
`get_all_shots` method ("All shots as a dict using get_all_shots") that is
absent from the source file.  The spec defines it as "Equivalent to
`get_slice` over the full ordinal range in forward order". -/
def SegyIO_Shots.get_all_shots (file : List (List Int)) (s : SegyIO_Shots) :
    Except SegyError (List (Int × List (List Int))) :=
  s.getItemSlice file 0 s.num_shots 1

/-- Checker for the contiguity assumption of §9: scanning the identifier
sequence, an identifier differing from the current one must never have
been seen before. -/
def contigCheck (seen : List Int) (cur : Option Int) : List Int → Bool
  | [] => true
  | x :: rest =>
    if cur = some x then contigCheck seen cur rest
    else if x ∈ seen then false
    else contigCheck (x :: seen) (some x) rest

/-- Total trace count recorded in a shots dict. -/
def sumTraces (l : List (Int × ShotEntry)) : Nat :=
  (l.map (fun p => p.2.Num_Traces)).sum

/-- The spec's test scenario: 5 traces, identifiers `[7,7,7,9,9]`, source
coordinates `(1,1)` for identifier 7 and `(2,2)` for identifier 9, receiver
coordinates `(10,10),(11,11),(12,12),(20,20),(21,21)` in trace order. -/
def scenarioHeaders : List Header :=
  [⟨7, 1, 1, 10, 10⟩, ⟨7, 1, 1, 11, 11⟩, ⟨7, 1, 1, 12, 12⟩,
   ⟨9, 2, 2, 20, 20⟩, ⟨9, 2, 2, 21, 21⟩]

/-- Concrete trace data for the scenario: 5 traces of 4 samples each. -/
def scenarioFile : List (List Int) :=
  [[101, 102, 103, 104], [111, 112, 113, 114], [121, 122, 123, 124],
   [201, 202, 203, 204], [211, 212, 213, 214]]


/-! ### Association-list (Python dict) lemmas -/

theorem dictGet_of_mem_keys {l : List (Int × α)} {k : Int}
    (h : k ∈ l.map (·.1)) : ∃ v, dictGet l k = some v ∧ (k, v) ∈ l := by
  induction l with
  | nil => simp at h
  | cons p rest ih =>
    obtain ⟨k', v'⟩ := p
    by_cases hk : k' = k
    · subst hk
      exact ⟨v', by simp [dictGet], by simp⟩
    · simp only [List.map_cons, List.mem_cons] at h
      rcases h with h | h
      · exact absurd h.symm hk
      · obtain ⟨v, hv, hmem⟩ := ih h
        exact ⟨v, by simpa [dictGet, hk] using hv, List.mem_cons_of_mem _ hmem⟩

theorem keys_dictSet_of_not_mem {l : List (Int × α)} {k : Int} {v : α}
    (h : k ∉ l.map (·.1)) : (dictSet l k v).map (·.1) = l.map (·.1) ++ [k] := by
  induction l with
  | nil => simp [dictSet]
  | cons p rest ih =>
    obtain ⟨k', v'⟩ := p
    simp only [List.map_cons, List.mem_cons] at h
    push_neg at h
    simp [dictSet, Ne.symm h.1, ih h.2]

theorem keys_dictSet_of_mem {l : List (Int × α)} {k : Int} {v : α}
    (h : k ∈ l.map (·.1)) : (dictSet l k v).map (·.1) = l.map (·.1) := by
  induction l with
  | nil => simp at h
  | cons p rest ih =>
    obtain ⟨k', v'⟩ := p
    by_cases hk : k' = k
    · subst hk; simp [dictSet]
    · simp only [List.map_cons, List.mem_cons] at h
      rcases h with h | h
      · exact absurd h.symm hk
      · simp [dictSet, hk, ih h]

theorem keys_dictModify {l : List (Int × α)} {k : Int} {f : α → α} :
    (dictModify l k f).map (·.1) = l.map (·.1) := by
  induction l with
  | nil => rfl
  | cons p rest ih =>
    obtain ⟨k', v'⟩ := p
    by_cases hk : k' = k <;>
      simpa [dictModify, hk] using (by simpa [dictModify] using ih :
        (dictModify rest k f).map (·.1) = rest.map (·.1))

theorem mem_dictSet {l : List (Int × α)} {k : Int} {v : α} {p : Int × α}
    (h : p ∈ dictSet l k v) : p = (k, v) ∨ p ∈ l := by
  induction l with
  | nil => simpa [dictSet] using h
  | cons q rest ih =>
    obtain ⟨k', v'⟩ := q
    by_cases hk : k' = k
    · subst hk
      simp only [dictSet, if_pos rfl, List.mem_cons, if_true, eq_self_iff_true] at h
      rcases h with h | h
      · exact Or.inl h
      · exact Or.inr (List.mem_cons_of_mem _ h)
    · simp only [dictSet, if_neg hk, List.mem_cons] at h
      rcases h with h | h
      · exact Or.inr (by simp [h])
      · rcases ih h with h' | h'
        · exact Or.inl h'
        · exact Or.inr (List.mem_cons_of_mem _ h')

theorem mem_dictSet_of_nodup {l : List (Int × α)} {k : Int} {v : α} {p : Int × α}
    (hnd : (l.map (·.1)).Nodup) (h : p ∈ dictSet l k v) :
    p = (k, v) ∨ (p ∈ l ∧ p.1 ≠ k) := by
  induction l with
  | nil => simpa [dictSet] using h
  | cons q rest ih =>
    obtain ⟨k', v'⟩ := q
    simp only [List.map_cons, List.nodup_cons] at hnd
    by_cases hk : k' = k
    · subst hk
      simp only [dictSet, if_pos rfl, List.mem_cons, if_true, eq_self_iff_true] at h
      rcases h with h | h
      · exact Or.inl h
      · refine Or.inr ⟨List.mem_cons_of_mem _ h, fun hpk => ?_⟩
        exact hnd.1 (hpk ▸ List.mem_map_of_mem _ h)
    · simp only [dictSet, if_neg hk, List.mem_cons] at h
      rcases h with h | h
      · exact Or.inr ⟨by simp [h], by simp [h, hk]⟩
      · rcases ih hnd.2 h with h' | h'
        · exact Or.inl h'
        · exact Or.inr ⟨List.mem_cons_of_mem _ h'.1, h'.2⟩

theorem mem_dictModify {l : List (Int × α)} {k : Int} {f : α → α} {p : Int × α}
    (h : p ∈ dictModify l k f) :
    (∃ q ∈ l, q.1 = k ∧ p = (k, f q.2)) ∨ (p ∈ l ∧ p.1 ≠ k) := by
  simp only [dictModify, List.mem_map] at h
  obtain ⟨q, hq, hpq⟩ := h
  by_cases hk : q.1 = k
  · rw [if_pos hk] at hpq
    exact Or.inl ⟨q, hq, hk, by simp [← hpq, hk]⟩
  · rw [if_neg hk] at hpq
    subst hpq
    exact Or.inr ⟨hq, hk⟩

theorem dictModify_id_of_not_mem {l : List (Int × α)} {k : Int} {f : α → α}
    (h : k ∉ l.map (·.1)) : dictModify l k f = l := by
  induction l with
  | nil => rfl
  | cons p rest ih =>
    obtain ⟨k', v'⟩ := p
    simp only [List.map_cons, List.mem_cons] at h
    push_neg at h
    simp only [dictModify, List.map_cons]
    rw [if_neg (by simpa using Ne.symm h.1)]
    simpa [dictModify] using ih h.2

theorem dictSet_append_of_not_mem {l : List (Int × α)} {k : Int} {v : α}
    (h : k ∉ l.map (·.1)) : dictSet l k v = l ++ [(k, v)] := by
  induction l with
  | nil => rfl
  | cons p rest ih =>
    obtain ⟨k', v'⟩ := p
    simp only [List.map_cons, List.mem_cons] at h
    push_neg at h
    simp [dictSet, Ne.symm h.1, ih h.2]

/-! ### Python list-indexing lemmas -/

theorem pyListGet_of_nonneg {l : List α} {i : Int} (h0 : 0 ≤ i) (hlt : i < l.length) :
    pyListGet l i = l[i.toNat]? := by
  simp [pyListGet, h0, hlt]

theorem pyListGet_of_neg_wrap {l : List α} {i : Int} (hneg : i < 0)
    (hge : 0 ≤ i + l.length) : pyListGet l i = l[(i + l.length).toNat]? := by
  simp only [pyListGet, if_neg (by omega : ¬ 0 ≤ i), if_pos hge]

theorem pyListGet_eq_none_of_ge {l : List α} {i : Int} (h : (l.length : Int) ≤ i) :
    pyListGet l i = none := by
  have h0 : 0 ≤ i := le_trans (by positivity) h
  simp [pyListGet, h0, not_lt.mpr h]

theorem pyListGet_eq_none_of_lt {l : List α} {i : Int} (h : i < -(l.length : Int)) :
    pyListGet l i = none := by
  simp only [pyListGet, if_neg (by omega : ¬ 0 ≤ i), if_neg (by omega : ¬ 0 ≤ i + l.length)]

theorem pyListGet_mem {l : List α} {i : Int} {a : α} (h : pyListGet l i = some a) :
    a ∈ l := by
  simp only [pyListGet] at h
  split_ifs at h
  · exact List.getElem?_mem h
  · exact List.getElem?_mem h

theorem pyListGet_isSome {l : List α} {i : Int} (hge : -(l.length : Int) ≤ i)
    (hlt : i < l.length) : ∃ a, pyListGet l i = some a := by
  by_cases h0 : 0 ≤ i
  · rw [pyListGet_of_nonneg h0 hlt]
    exact ⟨_, List.getElem?_eq_getElem (by omega)⟩
  · rw [pyListGet_of_neg_wrap (by omega) (by omega)]
    exact ⟨_, List.getElem?_eq_getElem (by omega)⟩

/-! ### Build-scan step and loop lemmas -/

theorem buildStep_new {st : BuildState} {tr : Header}
    (h : st.curr_ident ≠ some tr.FieldRecord) :
    buildStep st tr =
      ⟨dictModify (dictSet st.shots tr.FieldRecord (freshEntry st.pos_in_file tr))
         tr.FieldRecord (recvApp (tr.GroupX, tr.GroupY)),
       some tr.FieldRecord, st.pos_in_file + 1⟩ := by
  simp [buildStep, h]

theorem buildStep_same {st : BuildState} {tr : Header}
    (h : st.curr_ident = some tr.FieldRecord) :
    buildStep st tr =
      ⟨dictModify (dictModify st.shots tr.FieldRecord incCount)
         tr.FieldRecord (recvApp (tr.GroupX, tr.GroupY)),
       st.curr_ident, st.pos_in_file + 1⟩ := by
  simp [buildStep, h]

theorem buildStep_pos (st : BuildState) (tr : Header) :
    (buildStep st tr).pos_in_file = st.pos_in_file + 1 := by
  by_cases h : st.curr_ident = some tr.FieldRecord
  · rw [buildStep_same h]
  · rw [buildStep_new h]

theorem buildLoop_pos (hs : List Header) : ∀ st : BuildState,
    (buildLoop st hs).pos_in_file = st.pos_in_file + hs.length := by
  induction hs with
  | nil => intro st; rfl
  | cons h rest ih =>
    intro st
    show (buildLoop (buildStep st h) rest).pos_in_file = _
    rw [ih, buildStep_pos]
    simp only [List.length_cons]
    omega

theorem buildStep_keys_nodup {st : BuildState} (tr : Header)
    (hnd : (st.shots.map (·.1)).Nodup) :
    (((buildStep st tr).shots).map (·.1)).Nodup := by
  by_cases h : st.curr_ident = some tr.FieldRecord
  · rw [buildStep_same h]
    simpa [keys_dictModify] using hnd
  · rw [buildStep_new h]
    rw [keys_dictModify]
    by_cases hmem : tr.FieldRecord ∈ st.shots.map (·.1)
    · rw [keys_dictSet_of_mem hmem]; exact hnd
    · rw [keys_dictSet_of_not_mem hmem]
      simp [List.nodup_append, hnd, hmem]

theorem buildLoop_keys_nodup (hs : List Header) : ∀ st : BuildState,
    (st.shots.map (·.1)).Nodup → (((buildLoop st hs).shots).map (·.1)).Nodup := by
  induction hs with
  | nil => intro st h; exact h
  | cons h rest ih =>
    intro st hnd
    exact ih _ (buildStep_keys_nodup h hnd)

theorem buildStep_bound {st : BuildState} (tr : Header)
    (hb : ∀ p ∈ st.shots, p.2.Trace_Position + p.2.Num_Traces ≤ st.pos_in_file) :
    ∀ p ∈ (buildStep st tr).shots,
      p.2.Trace_Position + p.2.Num_Traces ≤ st.pos_in_file + 1 := by
  intro p hp
  by_cases h : st.curr_ident = some tr.FieldRecord
  · rw [buildStep_same h] at hp
    rcases mem_dictModify hp with ⟨q, hq, _, hpq⟩ | ⟨hq, _⟩
    · rcases mem_dictModify hq with ⟨r, hr, _, hqr⟩ | ⟨hr, _⟩
      · have := hb r hr
        subst hpq; subst hqr
        simp only [recvApp, incCount]
        omega
      · have := hb q hr
        subst hpq
        simp only [recvApp]
        omega
    · rcases mem_dictModify hq with ⟨r, hr, _, hqr⟩ | ⟨hr, _⟩
      · have := hb r hr
        subst hqr
        simp only [incCount]
        omega
      · have := hb p hr
        omega
  · rw [buildStep_new h] at hp
    rcases mem_dictModify hp with ⟨q, hq, _, hpq⟩ | ⟨hq, _⟩
    · rcases mem_dictSet hq with hq' | hq'
      · subst hpq; subst hq'
        simp only [recvApp, freshEntry]
        omega
      · have := hb q hq'
        subst hpq
        simp only [recvApp]
        omega
    · rcases mem_dictSet hq with hq' | hq'
      · subst hq'
        simp only [freshEntry]
        omega
      · have := hb p hq'
        omega

theorem buildLoop_bound (hs : List Header) : ∀ st : BuildState,
    (∀ p ∈ st.shots, p.2.Trace_Position + p.2.Num_Traces ≤ st.pos_in_file) →
    ∀ p ∈ (buildLoop st hs).shots,
      p.2.Trace_Position + p.2.Num_Traces ≤ (buildLoop st hs).pos_in_file := by
  induction hs with
  | nil => intro st h; exact h
  | cons h rest ih =>
    intro st hb
    exact ih _ (by simpa [buildStep_pos] using buildStep_bound h hb)

theorem buildStep_recv {st : BuildState} (tr : Header)
    (hnd : (st.shots.map (·.1)).Nodup)
    (hr : ∀ p ∈ st.shots, p.2.Receiver_XYs.length = p.2.Num_Traces) :
    ∀ p ∈ (buildStep st tr).shots,
      p.2.Receiver_XYs.length = p.2.Num_Traces := by
  intro p hp
  by_cases h : st.curr_ident = some tr.FieldRecord
  · rw [buildStep_same h] at hp
    rcases mem_dictModify hp with ⟨q, hq, hqk, hpq⟩ | ⟨hq, hpk⟩
    · rcases mem_dictModify hq with ⟨r, hr', _, hqr⟩ | ⟨hr', hrk⟩
      · have := hr r hr'
        subst hpq; subst hqr
        simp only [recvApp, incCount, List.length_append, List.length_cons,
          List.length_nil]
        omega
      · exact absurd hqk hrk
    · rcases mem_dictModify hq with ⟨r, _, _, hqr⟩ | ⟨hr', _⟩
      · exact absurd (by simp [hqr]) hpk
      · exact hr p hr'
  · rw [buildStep_new h] at hp
    rcases mem_dictModify hp with ⟨q, hq, hqk, hpq⟩ | ⟨hq, hpk⟩
    · rcases mem_dictSet_of_nodup hnd hq with hq' | hq'
      · subst hpq; subst hq'
        simp [recvApp, freshEntry]
      · exact absurd hqk hq'.2
    · rcases mem_dictSet hq with hq' | hq'
      · exact absurd (by simp [hq']) hpk
      · exact hr p hq'

theorem buildLoop_recv (hs : List Header) : ∀ st : BuildState,
    (st.shots.map (·.1)).Nodup →
    (∀ p ∈ st.shots, p.2.Receiver_XYs.length = p.2.Num_Traces) →
    ∀ p ∈ (buildLoop st hs).shots,
      p.2.Receiver_XYs.length = p.2.Num_Traces := by
  induction hs with
  | nil => intro st _ h; exact h
  | cons h rest ih =>
    intro st hnd hr
    exact ih _ (buildStep_keys_nodup h hnd) (buildStep_recv h hnd hr)

/-! ### Trace-count sum lemmas -/

theorem sumTraces_append (l l' : List (Int × ShotEntry)) :
    sumTraces (l ++ l') = sumTraces l + sumTraces l' := by
  simp [sumTraces]

theorem sumTraces_dictSet_of_not_mem {l : List (Int × ShotEntry)} {k : Int}
    {v : ShotEntry} (h : k ∉ l.map (·.1)) :
    sumTraces (dictSet l k v) = sumTraces l + v.Num_Traces := by
  rw [dictSet_append_of_not_mem h, sumTraces_append]
  simp [sumTraces]

theorem sumTraces_dictModify_preserve (l : List (Int × ShotEntry)) (k : Int)
    (f : ShotEntry → ShotEntry) (hf : ∀ e, (f e).Num_Traces = e.Num_Traces) :
    sumTraces (dictModify l k f) = sumTraces l := by
  induction l with
  | nil => rfl
  | cons p rest ih =>
    obtain ⟨k', v'⟩ := p
    by_cases hk : k' = k <;>
      simp [dictModify, sumTraces, hk, hf] <;>
      simpa [dictModify, sumTraces] using ih

theorem sumTraces_dictModify_inc {l : List (Int × ShotEntry)} {k : Int}
    (hnd : (l.map (·.1)).Nodup) (hk : k ∈ l.map (·.1)) :
    sumTraces (dictModify l k incCount) = sumTraces l + 1 := by
  induction l with
  | nil => simp at hk
  | cons p rest ih =>
    obtain ⟨k', v'⟩ := p
    simp only [List.map_cons, List.nodup_cons] at hnd
    by_cases hkk : k' = k
    · subst hkk
      have hnot : k' ∉ rest.map (·.1) := hnd.1
      simp only [dictModify, List.map_cons, if_pos rfl]
      rw [show (rest.map fun p => if p.1 = k' then (p.1, incCount p.2) else p) =
        dictModify rest k' incCount from rfl, dictModify_id_of_not_mem hnot]
      simp [sumTraces, incCount]
      omega
    · simp only [List.map_cons, List.mem_cons] at hk
      rcases hk with hk | hk
      · exact absurd hk.symm hkk
      · simp only [dictModify, List.map_cons, if_neg hkk]
        have := ih hnd.2 hk
        simp only [dictModify] at this
        simp [sumTraces] at this ⊢
        omega

/-! ### Contiguity-checker lemmas -/

theorem contigCheck_congr : ∀ (l : List Int) (s1 s2 : List Int) (cur : Option Int),
    (∀ a, a ∈ s1 ↔ a ∈ s2) → contigCheck s1 cur l = contigCheck s2 cur l := by
  intro l
  induction l with
  | nil => intro s1 s2 cur _; rfl
  | cons x rest ih =>
    intro s1 s2 cur hmem
    by_cases hc : cur = some x
    · simp only [contigCheck, if_pos hc]
      exact ih s1 s2 cur hmem
    · simp only [contigCheck, if_neg hc]
      by_cases hx : x ∈ s1
      · simp [hx, (hmem x).mp hx]
      · have hx2 : x ∉ s2 := fun h => hx ((hmem x).mpr h)
        simp only [if_neg hx, if_neg hx2]
        exact ih _ _ _ (fun a => by simp [List.mem_cons, hmem a])

theorem buildLoop_sum (hs : List Header) : ∀ st : BuildState,
    (st.shots.map (·.1)).Nodup →
    (∀ c, st.curr_ident = some c → c ∈ st.shots.map (·.1)) →
    contigCheck (st.shots.map (·.1)) st.curr_ident (hs.map (·.FieldRecord)) = true →
    sumTraces (buildLoop st hs).shots = sumTraces st.shots + hs.length := by
  induction hs with
  | nil => intro st _ _ _; rfl
  | cons h rest ih =>
    intro st hnd hcur hcontig
    simp only [List.map_cons] at hcontig
    show sumTraces (buildLoop (buildStep st h) rest).shots = _
    by_cases hc : st.curr_ident = some h.FieldRecord
    · have hcontig' :
          contigCheck (st.shots.map (·.1)) st.curr_ident (rest.map (·.FieldRecord)) = true := by
        simpa [contigCheck, hc] using hcontig
      have hkmem : h.FieldRecord ∈ st.shots.map (·.1) := hcur _ hc
      have hshots : (buildStep st h).shots =
          dictModify (dictModify st.shots h.FieldRecord incCount)
            h.FieldRecord (recvApp (h.GroupX, h.GroupY)) := by
        rw [buildStep_same hc]
      have hcur2 : (buildStep st h).curr_ident = st.curr_ident := by
        rw [buildStep_same hc]
      have hkeys : ((buildStep st h).shots.map (·.1)) = st.shots.map (·.1) := by
        rw [hshots, keys_dictModify, keys_dictModify]
      rw [ih (buildStep st h) (by rw [hkeys]; exact hnd)
            (by intro c hcc; rw [hkeys]; exact hcur c (hcur2 ▸ hcc))
            (by rw [hkeys, hcur2]; exact hcontig')]
      rw [hshots,
          sumTraces_dictModify_preserve _ _ (recvApp (h.GroupX, h.GroupY)) (fun e => rfl),
          sumTraces_dictModify_inc hnd hkmem]
      simp only [List.length_cons]
      omega
    · have hx : h.FieldRecord ∉ st.shots.map (·.1) := by
        intro hmem
        simp [contigCheck, hc, hmem] at hcontig
      have hcontig' :
          contigCheck (h.FieldRecord :: st.shots.map (·.1)) (some h.FieldRecord)
            (rest.map (·.FieldRecord)) = true := by
        simpa [contigCheck, hc, hx] using hcontig
      have hshots : (buildStep st h).shots =
          dictModify (dictSet st.shots h.FieldRecord (freshEntry st.pos_in_file h))
            h.FieldRecord (recvApp (h.GroupX, h.GroupY)) := by
        rw [buildStep_new hc]
      have hcur2 : (buildStep st h).curr_ident = some h.FieldRecord := by
        rw [buildStep_new hc]
      have hkeys : ((buildStep st h).shots.map (·.1)) =
          st.shots.map (·.1) ++ [h.FieldRecord] := by
        rw [hshots, keys_dictModify, keys_dictSet_of_not_mem hx]
      rw [ih (buildStep st h)
            (by rw [hkeys]; simp [List.nodup_append, hnd, hx])
            (by intro c hcc
                rw [hkeys]
                rw [hcur2] at hcc
                simp only [Option.some.injEq] at hcc
                simp [← hcc])
            (by rw [hkeys, hcur2]
                rw [contigCheck_congr _ _ (h.FieldRecord :: st.shots.map (·.1)) _
                  (fun a => by simp [List.mem_append, List.mem_cons, or_comm])]
                exact hcontig')]
      rw [hshots,
          sumTraces_dictModify_preserve _ _ (recvApp (h.GroupX, h.GroupY)) (fun e => rfl),
          sumTraces_dictSet_of_not_mem hx]
      simp only [freshEntry, List.length_cons]
      omega

/-! ### Facts about the built index -/

theorem build_records_eq (ns : Nat) (hs : List Header) :
    (SegyIO_Shots.build ns hs).records = (SegyIO_Shots.build ns hs).shots.map (·.1) := rfl

theorem build_records_length (ns : Nat) (hs : List Header) :
    (SegyIO_Shots.build ns hs).records.length = (SegyIO_Shots.build ns hs).num_shots := by
  simp [SegyIO_Shots.build]

theorem build_records_nodup (ns : Nat) (hs : List Header) :
    (SegyIO_Shots.build ns hs).records.Nodup :=
  buildLoop_keys_nodup hs ⟨[], none, 0⟩ (by simp)

theorem build_bound (ns : Nat) (hs : List Header) :
    ∀ p ∈ (SegyIO_Shots.build ns hs).shots,
      p.2.Trace_Position + p.2.Num_Traces ≤ hs.length := by
  intro p hp
  have h := buildLoop_bound hs ⟨[], none, 0⟩ (by simp) p hp
  rwa [buildLoop_pos, Nat.zero_add] at h

theorem fillRows_eq_of_length {s z : List (List Int)} (h : s.length = z.length) :
    fillRows z s = s := by
  induction s generalizing z with
  | nil =>
    cases z with
    | nil => rfl
    | cons _ _ => simp at h
  | cons r rs ih =>
    cases z with
    | nil => simp at h
    | cons z0 zs =>
      simp only [List.length_cons] at h
      simp only [fillRows]
      rw [ih (by omega)]

theorem get_shot_ok_of_mem (file : List (List Int)) (s : SegyIO_Shots) {ident : Int}
    (h : ident ∈ s.shots.map (·.1)) :
    ∃ e m, dictGet s.shots ident = some e ∧ (ident, e) ∈ s.shots ∧
      s.get_shot file ident = .ok m := by
  obtain ⟨e, he, hmem⟩ := dictGet_of_mem_keys h
  exact ⟨e, _, he, hmem, by rw [SegyIO_Shots.get_shot, he]⟩

theorem readTraces_length {file : List (List Int)} {start count : Nat}
    (h : start + count ≤ file.length) :
    (readTraces file start count).length = count := by
  simp only [readTraces, List.length_take, List.length_drop]
  omega

/-- C5: for every shot identifier present in the index, `get_shot` returns
`Except.ok` of exactly the range read `read_traces(position, num_traces)`:
a matrix with `Num_Traces` rows, each row of length `num_samples`, whose
row `i` is the trace at sequential position `Trace_Position + i`. -/
theorem get_shot_reads_range (ns : Nat) (headers : List Header)
    (file : List (List Int))
    (hlen : file.length = headers.length)
    (hwf : ∀ t ∈ file, t.length = ns)
    (ident : Int) (hmem : ident ∈ (SegyIO_Shots.build ns headers).records) :
    ∃ e, dictGet (SegyIO_Shots.build ns headers).shots ident = some e ∧
      (SegyIO_Shots.build ns headers).get_shot file ident =
        .ok (readTraces file e.Trace_Position e.Num_Traces) ∧
      (readTraces file e.Trace_Position e.Num_Traces).length = e.Num_Traces ∧
      (∀ r ∈ readTraces file e.Trace_Position e.Num_Traces,
        r.length = (SegyIO_Shots.build ns headers).num_samples) ∧
      (∀ i : Nat, i < e.Num_Traces →
        (readTraces file e.Trace_Position e.Num_Traces)[i]? =
          file[e.Trace_Position + i]?) := by
  rw [build_records_eq] at hmem
  obtain ⟨e, he, hpmem⟩ := dictGet_of_mem_keys hmem
  have hbound : e.Trace_Position + e.Num_Traces ≤ file.length := by
    rw [hlen]
    exact build_bound ns headers (ident, e) hpmem
  have hrlen : (readTraces file e.Trace_Position e.Num_Traces).length = e.Num_Traces :=
    readTraces_length hbound
  refine ⟨e, he, ?_, hrlen, ?_, ?_⟩
  · simp only [SegyIO_Shots.get_shot, he]
    have : fillRows
        (List.replicate e.Num_Traces (List.replicate (SegyIO_Shots.build ns headers).num_samples 0))
        ((file.drop e.Trace_Position).take e.Num_Traces) =
        (file.drop e.Trace_Position).take e.Num_Traces :=
      fillRows_eq_of_length (by
        rw [List.length_replicate]
        exact hrlen)
    rw [this]
    rfl
  · intro r hr
    have : r ∈ file :=
      List.mem_of_mem_drop (List.mem_of_mem_take hr)
    rw [hwf r this]
    rfl
  · intro i hi
    rw [readTraces, List.getElem?_take_of_lt hi, List.getElem?_drop]

theorem getItemInt_ok_of_some (ns : Nat) (headers : List Header)
    (file : List (List Int)) {k : Int} {ident : Int}
    (hid : pyListGet (SegyIO_Shots.build ns headers).records k = some ident) :
    ∃ m, (SegyIO_Shots.build ns headers).get_shot file ident = .ok m := by
  have hmem : ident ∈ (SegyIO_Shots.build ns headers).records := pyListGet_mem hid
  rw [build_records_eq] at hmem
  obtain ⟨e, m, _, _, hok⟩ := get_shot_ok_of_mem file _ hmem
  exact ⟨m, hok⟩

/-- C2 (amended): for every built index and integer ordinal, `__getitem__`
with an int key fails with IndexError if and only if the resolved position
(`key + num_shots` for negative keys, `key` otherwise) lies outside
`[-num_shots, num_shots)`: resolved positions in `[-num_shots, -1]` index
`records` from the end a second time and succeed. -/
theorem getItemInt_error_iff (ns : Nat) (headers : List Header)
    (file : List (List Int)) (key : Int) :
    ((SegyIO_Shots.build ns headers).getItemInt file key =
        .error SegyError.indexError) ↔
      (pyResolve key (SegyIO_Shots.build ns headers).num_shots <
          -(((SegyIO_Shots.build ns headers).num_shots : Nat) : Int) ∨
        (((SegyIO_Shots.build ns headers).num_shots : Nat) : Int) ≤
          pyResolve key (SegyIO_Shots.build ns headers).num_shots) := by
  have hreclen := build_records_length ns headers
  simp only [SegyIO_Shots.getItemInt]
  by_cases h1 : ((SegyIO_Shots.build ns headers).num_shots : Int) <
      pyResolve key (SegyIO_Shots.build ns headers).num_shots
  · rw [if_pos h1]
    exact iff_of_true rfl (Or.inr (by omega))
  · rw [if_neg h1]
    by_cases h2 : pyResolve key (SegyIO_Shots.build ns headers).num_shots <
        -(((SegyIO_Shots.build ns headers).num_shots : Nat) : Int)
    · rw [pyListGet_eq_none_of_lt (by rw [hreclen]; exact h2)]
      exact iff_of_true rfl (Or.inl h2)
    · by_cases h3 : pyResolve key (SegyIO_Shots.build ns headers).num_shots <
          ((SegyIO_Shots.build ns headers).num_shots : Int)
      · have hge : -(((SegyIO_Shots.build ns headers).records.length : Nat) : Int) ≤
            pyResolve key (SegyIO_Shots.build ns headers).num_shots := by
          rw [hreclen]; omega
        have hlt : pyResolve key (SegyIO_Shots.build ns headers).num_shots <
            ((SegyIO_Shots.build ns headers).records.length : Int) := by
          rw [hreclen]; exact_mod_cast h3
        obtain ⟨ident, hid⟩ := pyListGet_isSome hge hlt
        obtain ⟨m, hok⟩ := getItemInt_ok_of_some ns headers file hid
        rw [hid]
        simp only [hok]
        exact iff_of_false (by simp) (by omega)
      · rw [pyListGet_eq_none_of_ge (by rw [hreclen]; omega)]
        exact iff_of_true rfl (Or.inr (by omega))

/-- C6: for every ordinal `i` in `[0, num_shots)`, `__getitem__` with the
int key `i` returns the singleton mapping pairing `records[i]` with the
matrix `get_shot(records[i])`. -/
theorem getItemInt_at_ordinal (ns : Nat) (headers : List Header)
    (file : List (List Int)) (i : Nat)
    (h : i < (SegyIO_Shots.build ns headers).num_shots) :
    ∃ ident m,
      (SegyIO_Shots.build ns headers).records[i]? = some ident ∧
      (SegyIO_Shots.build ns headers).get_shot file ident = .ok m ∧
      (SegyIO_Shots.build ns headers).getItemInt file (i : Int) = .ok [(ident, m)] := by
  have hreclen := build_records_length ns headers
  have hil : i < (SegyIO_Shots.build ns headers).records.length := by omega
  have hres : pyResolve (i : Int) (SegyIO_Shots.build ns headers).num_shots = (i : Int) := by
    simp [pyResolve]
  have hpy : pyListGet (SegyIO_Shots.build ns headers).records (i : Int) =
      some ((SegyIO_Shots.build ns headers).records.get ⟨i, hil⟩) := by
    rw [pyListGet_of_nonneg (by positivity) (by exact_mod_cast hil), Int.toNat_natCast]
    exact List.getElem?_eq_getElem hil
  have hmem : (SegyIO_Shots.build ns headers).records.get ⟨i, hil⟩ ∈
      (SegyIO_Shots.build ns headers).shots.map (·.1) := by
    rw [← build_records_eq]
    exact List.getElem_mem hil
  obtain ⟨e, m, _, _, hok⟩ := get_shot_ok_of_mem file _ hmem
  refine ⟨(SegyIO_Shots.build ns headers).records.get ⟨i, hil⟩, m,
    List.getElem?_eq_getElem hil, hok, ?_⟩
  simp only [SegyIO_Shots.getItemInt, hres, if_neg (by omega : ¬ ((SegyIO_Shots.build ns headers).num_shots : Int) < (i : Int)), hpy, hok]

/-- C7: for every index with at least one shot, `__getitem__` with key `-1`
returns the same result as with key `num_shots - 1`. -/
theorem getItemInt_neg_one_eq_last (ns : Nat) (headers : List Header)
    (file : List (List Int))
    (h : 1 ≤ (SegyIO_Shots.build ns headers).num_shots) :
    (SegyIO_Shots.build ns headers).getItemInt file (-1) =
      (SegyIO_Shots.build ns headers).getItemInt file
        (((SegyIO_Shots.build ns headers).num_shots : Int) - 1) := by
  have hres : pyResolve (-1) (SegyIO_Shots.build ns headers).num_shots =
      pyResolve (((SegyIO_Shots.build ns headers).num_shots : Int) - 1)
        (SegyIO_Shots.build ns headers).num_shots := by
    simp only [pyResolve]
    rw [if_pos (by omega), if_neg (by omega)]
    omega
  simp only [SegyIO_Shots.getItemInt, hres]

theorem nodup_getElem_not_mem_take {l : List Int} (hnd : l.Nodup) {j : Nat}
    (hj : j < l.length) : l.get ⟨j, hj⟩ ∉ l.take j := by
  intro hmem
  obtain ⟨i, hi, hgi⟩ := List.getElem_of_mem hmem
  have hij : i < j := by
    have := hi
    simp only [List.length_take] at this
    omega
  have hil : i < l.length := by omega
  rw [List.getElem_take] at hgi
  exact absurd (hnd.getElem_inj_iff.mp hgi) (by omega)

theorem accumShots_records (ns : Nat) (headers : List Header)
    (file : List (List Int)) :
    ∀ (cnt j : Nat) (acc : List (Int × List (List Int))),
      j + cnt = (SegyIO_Shots.build ns headers).records.length →
      acc.map (·.1) = (SegyIO_Shots.build ns headers).records.take j →
      ∃ l, accumShots file (SegyIO_Shots.build ns headers)
             ((List.range' j cnt).map (fun m => (m : Int))) acc = .ok l ∧
           l.map (·.1) = (SegyIO_Shots.build ns headers).records := by
  intro cnt
  induction cnt with
  | zero =>
    intro j acc hj hacc
    refine ⟨acc, rfl, ?_⟩
    rw [hacc, show j = (SegyIO_Shots.build ns headers).records.length by omega,
      List.take_length]
  | succ cnt ih =>
    intro j acc hj hacc
    have hjl : j < (SegyIO_Shots.build ns headers).records.length := by omega
    have hpy : pyListGet (SegyIO_Shots.build ns headers).records (j : Int) =
        some ((SegyIO_Shots.build ns headers).records.get ⟨j, hjl⟩) := by
      rw [pyListGet_of_nonneg (by positivity) (by exact_mod_cast hjl), Int.toNat_natCast]
      exact List.getElem?_eq_getElem hjl
    have hmem : (SegyIO_Shots.build ns headers).records.get ⟨j, hjl⟩ ∈
        (SegyIO_Shots.build ns headers).shots.map (·.1) := by
      rw [← build_records_eq]
      exact List.getElem_mem hjl
    obtain ⟨e, m, _, _, hok⟩ := get_shot_ok_of_mem file _ hmem
    rw [List.range'_succ j cnt 1]
    simp only [List.map_cons, accumShots, hpy, hok]
    have hnot : (SegyIO_Shots.build ns headers).records.get ⟨j, hjl⟩ ∉ acc.map (·.1) := by
      rw [hacc]
      exact nodup_getElem_not_mem_take (build_records_nodup ns headers) hjl
    have hacc' : (dictSet acc ((SegyIO_Shots.build ns headers).records.get ⟨j, hjl⟩) m).map (·.1) =
        (SegyIO_Shots.build ns headers).records.take (j + 1) := by
      rw [dictSet_append_of_not_mem hnot, List.map_append, hacc, List.take_succ,
        List.getElem?_eq_getElem hjl]
      rfl
    exact ih (j + 1) _ (by omega) hacc'

theorem rangeCount_full (n : Nat) : rangeCount 0 (n : Int) 1 = n := by
  simp [rangeCount]

theorem rangeList_full (n : Nat) :
    rangeList 0 (n : Int) 1 = (List.range' 0 n).map (fun m => (m : Int)) := by
  rw [rangeList, rangeCount_full, List.range_eq_range']
  simp only [zero_add, one_mul]

theorem sliceIndices_full (n : Nat) :
    sliceIndices 0 (n : Int) 1 n = (0, (n : Int), 1) := by
  simp only [sliceIndices]
  norm_num

/-- C8: slicing the full ordinal range `(0, num_shots, 1)` returns the same
mapping as `get_all_shots` (modelled from the spec as the full-range
slice), and its keys are exactly `records` (= `ordered_identifiers`) in
order; in particular the key sets coincide. -/
theorem getItemSlice_full (ns : Nat) (headers : List Header)
    (file : List (List Int)) :
    ∃ l, (SegyIO_Shots.build ns headers).getItemSlice file 0
           ((SegyIO_Shots.build ns headers).num_shots : Int) 1 = .ok l ∧
         (SegyIO_Shots.build ns headers).get_all_shots file = .ok l ∧
         l.map (·.1) = (SegyIO_Shots.build ns headers).records := by
  have hreclen := build_records_length ns headers
  obtain ⟨l, hacc, hmap⟩ := accumShots_records ns headers file
    (SegyIO_Shots.build ns headers).records.length 0 [] (by omega) (by simp)
  have h1 : (SegyIO_Shots.build ns headers).getItemSlice file 0
      ((SegyIO_Shots.build ns headers).num_shots : Int) 1 = .ok l := by
    simp only [SegyIO_Shots.getItemSlice, if_neg one_ne_zero, sliceIndices_full,
      rangeList_full]
    rw [← hreclen]
    exact hacc
  exact ⟨l, h1, by rw [SegyIO_Shots.get_all_shots]; exact h1, hmap⟩

/-! ### Claim theorems, counterexamples and witnesses -/

/-- C1: building the index from the 5-trace scenario stream (identifiers
`[7,7,7,9,9]`, sources `(1,1)`/`(2,2)`, receivers
`(10,10),(11,11),(12,12),(20,20),(21,21)`) produces exactly the two
expected entries, `num_shots = 2` and `records = [7, 9]`, for any
`num_samples`. -/
theorem build_scenario_index (ns : Nat) :
    (SegyIO_Shots.build ns scenarioHeaders).shots =
      [(7, ⟨0, 3, (1, 1), [(10, 10), (11, 11), (12, 12)]⟩),
       (9, ⟨3, 2, (2, 2), [(20, 20), (21, 21)]⟩)] ∧
    (SegyIO_Shots.build ns scenarioHeaders).num_shots = 2 ∧
    (SegyIO_Shots.build ns scenarioHeaders).records = [7, 9] :=
  ⟨rfl, rfl, rfl⟩

/-- C2 (counterexample to the claim as stated): on the scenario index
(`num_shots = 2`), the key `-3` resolves to `-1`, which is not in
`[0, num_shots)`, yet the lookup does not fail: `records[-1]` wraps around
a second time and the call returns shot 9. -/
theorem getItemInt_out_of_range_no_error_cx :
    pyResolve (-3) (SegyIO_Shots.build 4 scenarioHeaders).num_shots = -1 ∧
    (SegyIO_Shots.build 4 scenarioHeaders).getItemInt scenarioFile (-3) =
      .ok [(9, [[201, 202, 203, 204], [211, 212, 213, 214]])] :=
  ⟨rfl, rfl⟩

/-- C3 (counterexample to the claim as stated): index construction on a
zero-trace header stream does not fail: it returns `ok` with an empty
index. -/
theorem buildE_empty_stream_no_error_cx :
    SegyIO_Shots.buildE 0 [] = .ok ⟨[], [], 0, 0⟩ :=
  rfl

/-- C3 (amended): `__init__` has no emptiness check; on a header stream of
zero traces it succeeds and returns an index with no shots: empty `shots`
dict, empty `records`, `num_shots = 0`. -/
theorem buildE_empty_stream_ok (ns : Nat) :
    SegyIO_Shots.buildE ns [] = .ok ⟨[], [], 0, ns⟩ :=
  rfl

/-- C4 (counterexample to the claim as stated): for the non-contiguous
identifier stream `[7, 9, 7]` the second run of identifier 7 overwrites
the first entry, so the recorded trace counts sum to 2 while 3 traces were
scanned. -/
theorem build_sum_traces_noncontig_cx :
    sumTraces (SegyIO_Shots.build 0
      [⟨7, 0, 0, 0, 0⟩, ⟨9, 0, 0, 0, 0⟩, ⟨7, 0, 0, 0, 0⟩]).shots ≠
      ([⟨7, 0, 0, 0, 0⟩, ⟨9, 0, 0, 0, 0⟩, ⟨7, 0, 0, 0, 0⟩] : List Header).length := by
  decide

/-- C4 (amended): for every finite header stream in which no shot
identifier recurs non-contiguously, the trace counts recorded in the index
sum to the total number of traces scanned. -/
theorem build_sum_traces_of_contig (ns : Nat) (headers : List Header)
    (hcontig : contigCheck [] none (headers.map (·.FieldRecord)) = true) :
    sumTraces (SegyIO_Shots.build ns headers).shots = headers.length := by
  have h := buildLoop_sum headers ⟨[], none, 0⟩ (by simp) (by simp)
    (by simpa using hcontig)
  simpa [SegyIO_Shots.build, sumTraces] using h

/-- C4 witness: the scenario stream is contiguous and its index's trace
counts sum to its 5 traces. -/
theorem build_sum_traces_of_contig_witness :
    contigCheck [] none (scenarioHeaders.map (·.FieldRecord)) = true ∧
    sumTraces (SegyIO_Shots.build 4 scenarioHeaders).shots = scenarioHeaders.length :=
  ⟨by decide, build_sum_traces_of_contig 4 scenarioHeaders (by decide)⟩

/-- C9: after any scan (contiguous or not), every entry of the shots dict
has as many recorded receiver coordinates as counted traces. -/
theorem build_receivers_match_counts (ns : Nat) (headers : List Header) :
    ∀ p ∈ (SegyIO_Shots.build ns headers).shots,
      p.2.Receiver_XYs.length = p.2.Num_Traces := by
  intro p hp
  exact buildLoop_recv headers ⟨[], none, 0⟩ (by simp) (by simp) p hp

/-- C9 witness: entry 7 of the scenario index has 3 receivers and 3
traces. -/
theorem build_receivers_match_counts_witness :
    ((7 : Int), (⟨0, 3, (1, 1), [(10, 10), (11, 11), (12, 12)]⟩ : ShotEntry)) ∈
      (SegyIO_Shots.build 4 scenarioHeaders).shots ∧
    (⟨0, 3, (1, 1), [(10, 10), (11, 11), (12, 12)]⟩ : ShotEntry).Receiver_XYs.length =
      (⟨0, 3, (1, 1), [(10, 10), (11, 11), (12, 12)]⟩ : ShotEntry).Num_Traces :=
  ⟨by decide, build_receivers_match_counts 4 scenarioHeaders
    ((7 : Int), (⟨0, 3, (1, 1), [(10, 10), (11, 11), (12, 12)]⟩ : ShotEntry))
    (by decide)⟩

/-- C10: `__getitem__` with a key that is neither an int nor a slice falls
through both `isinstance` branches and returns the empty dict unchanged,
raising nothing. -/
theorem getItem_other_returns_empty (ns : Nat) (headers : List Header)
    (file : List (List Int)) :
    (SegyIO_Shots.build ns headers).getItem file PyKey.other = .ok [] :=
  rfl

/-- C5 witness: on the scenario file, shot 9 is read as the range
`read_traces(3, 2)`. -/
theorem get_shot_reads_range_witness :
    scenarioFile.length = scenarioHeaders.length ∧
    (∀ t ∈ scenarioFile, t.length = 4) ∧
    (9 : Int) ∈ (SegyIO_Shots.build 4 scenarioHeaders).records ∧
    (∃ e, dictGet (SegyIO_Shots.build 4 scenarioHeaders).shots 9 = some e ∧
      (SegyIO_Shots.build 4 scenarioHeaders).get_shot scenarioFile 9 =
        .ok (readTraces scenarioFile e.Trace_Position e.Num_Traces) ∧
      (readTraces scenarioFile e.Trace_Position e.Num_Traces).length = e.Num_Traces ∧
      (∀ r ∈ readTraces scenarioFile e.Trace_Position e.Num_Traces,
        r.length = (SegyIO_Shots.build 4 scenarioHeaders).num_samples) ∧
      (∀ i : Nat, i < e.Num_Traces →
        (readTraces scenarioFile e.Trace_Position e.Num_Traces)[i]? =
          scenarioFile[e.Trace_Position + i]?)) :=
  ⟨by decide, by decide, by decide,
    get_shot_reads_range 4 scenarioHeaders scenarioFile (by decide) (by decide) 9
      (by decide)⟩

/-- C6 witness: ordinal 1 of the scenario index yields identifier 9 with
its shot matrix. -/
theorem getItemInt_at_ordinal_witness :
    1 < (SegyIO_Shots.build 4 scenarioHeaders).num_shots ∧
    (∃ ident m,
      (SegyIO_Shots.build 4 scenarioHeaders).records[1]? = some ident ∧
      (SegyIO_Shots.build 4 scenarioHeaders).get_shot scenarioFile ident = .ok m ∧
      (SegyIO_Shots.build 4 scenarioHeaders).getItemInt scenarioFile ((1 : Nat) : Int) =
        .ok [(ident, m)]) :=
  ⟨by decide, getItemInt_at_ordinal 4 scenarioHeaders scenarioFile 1 (by decide)⟩

/-- C7 witness: on the scenario index, key `-1` and key `num_shots - 1`
agree. -/
theorem getItemInt_neg_one_eq_last_witness :
    1 ≤ (SegyIO_Shots.build 4 scenarioHeaders).num_shots ∧
    (SegyIO_Shots.build 4 scenarioHeaders).getItemInt scenarioFile (-1) =
      (SegyIO_Shots.build 4 scenarioHeaders).getItemInt scenarioFile
        (((SegyIO_Shots.build 4 scenarioHeaders).num_shots : Int) - 1) :=
  ⟨by decide, getItemInt_neg_one_eq_last 4 scenarioHeaders scenarioFile (by decide)⟩
